import Mathlib

/-!
Shallow embedding of the suppy supply-chain simulator strategy layer:
the RSQ control strategy and the Fractional release strategy as written in
the custom-strategies notebook, together with the supply-chain graph, the
low-level codes of the simulator notebook example, the feasibility
computation and the pipeline of in-transit receipts.  Python dictionaries
from SKU code to integer quantity are embedded as insertion-ordered
association lists; the Python float arithmetic inside ceil is embedded as
exact rational arithmetic.
-/

/-- SKU codes are opaque strings. -/
abbrev SkuCode := String

/-- A quantity map: insertion-ordered association list from SKU code to
integer quantity, embedding the Stock and Orders dictionaries of suppy.
An absent key means quantity zero. -/
abbrev QtyMap := List (SkuCode × Int)

/-- Dictionary lookup with default zero: a missing key yields 0. -/
def qget : QtyMap → SkuCode → Int
  | [], _ => 0
  | p :: rest, k => if p.1 = k then p.2 else qget rest k

/-- Total quantity held in the map (Orders.sum in the source). -/
def sumQ (m : QtyMap) : Int := (m.map Prod.snd).sum

@[simp] theorem sumQ_nil : sumQ [] = 0 := rfl

@[simp] theorem sumQ_cons (p : SkuCode × Int) (l : QtyMap) :
    sumQ (p :: l) = p.2 + sumQ l := by
  simp [sumQ]

/-- Modelled from the spec: the Receipt dataclass of suppy.pipeline, whose
module is not among the sources at hand; an in-transit shipment with a sku
code, a remaining-periods eta and a quantity. -/
structure Receipt where
  sku_code : SkuCode
  eta : Int
  quantity : Int
deriving DecidableEq, Repr

/-- Policy parameters read by RSQ from the free-form data mapping of a node. -/
structure NodeData where
  order_quantity : Int
  reorder_level : Int
  review_time : Int
deriving DecidableEq, Repr

/-- A stocking node: its own SKU, policy data, low-level code, on-hand stock
keyed by SKU, backorders, outstanding downstream orders keyed by child SKU,
and the pipeline of inbound receipts. -/
structure Node where
  sku : SkuCode
  data : NodeData
  llc : Int
  stock : QtyMap
  backorders : Int
  orders : QtyMap
  pipeline : List Receipt
deriving DecidableEq, Repr

/-- On-hand stock of the node's own SKU (node.stock[node] in the source). -/
def stockSelf (n : Node) : Int := qget n.stock n.sku

namespace Fractional

/-- Decrement by one the first entry holding the maximum quantity: the head
is decremented exactly when its value is at least every later value, which
is how the Python max over dictionary keys picks the first key attaining
the maximum in insertion order. -/
def decFirstMax : QtyMap → QtyMap
  | [] => []
  | (s, v) :: rest =>
    if rest.all (fun p => p.2 ≤ v) then (s, v - 1) :: rest
    else (s, v) :: decFirstMax rest

theorem decFirstMax_sumQ (rel : QtyMap) (h : rel ≠ []) :
    sumQ (decFirstMax rel) = sumQ rel - 1 := by
  induction rel with
  | nil => exact absurd rfl h
  | cons hd tl ih =>
    obtain ⟨s, v⟩ := hd
    by_cases hc : tl.all (fun p => p.2 ≤ v)
    · simp [decFirstMax, hc]
      ring
    · have htl : tl ≠ [] := by
        intro he
        subst he
        simp at hc
      simp [decFirstMax, hc, ih htl]
      ring

theorem decFirstMax_ne_nil (rel : QtyMap) (h : rel ≠ []) :
    decFirstMax rel ≠ [] := by
  cases rel with
  | nil => exact absurd rfl h
  | cons hd tl =>
    obtain ⟨s, v⟩ := hd
    by_cases hc : tl.all (fun p => p.2 ≤ v) <;> simp [decFirstMax, hc]

/-- The correction loop of get_releases: while the total tentatively released
exceeds the available stock, decrement the currently largest release by one.
The empty-list branch is unreachable from getReleases, where the list always
carries one entry per outstanding order (in Python, max would raise there). -/
def adjust (stock : Int) : QtyMap → QtyMap
  | [] => []
  | p :: rest =>
    if stock < sumQ (p :: rest) then adjust stock (decFirstMax (p :: rest))
    else p :: rest
termination_by rel => (sumQ rel - stock).toNat
decreasing_by
  have hs := decFirstMax_sumQ (p :: rest) (by simp)
  have hd := decFirstMax_ne_nil (p :: rest) (by simp)
  cases hq : decFirstMax (p :: rest) with
  | nil => exact absurd hq hd
  | cons q qs =>
    rw [hq] at hs
    omega

/-- Fuel-indexed rendering of the same correction loop, with exactly the
source's guard; none models running out of fuel before the guard fails. -/
def adjustFuel : Nat → Int → QtyMap → Option QtyMap
  | 0, stock, rel => if stock < sumQ rel then none else some rel
  | fuel + 1, stock, rel =>
    if stock < sumQ rel then adjustFuel fuel stock (decFirstMax rel)
    else some rel

/-- The tentative proportional release: for each child order o, the ceiling
of o - shortage * (o / order_total), the Python float arithmetic embedded as
exact rational arithmetic. -/
def tentative (stock : Int) (orders : QtyMap) : QtyMap :=
  let T := sumQ orders
  let shortage : Int := max (T - stock) 0
  orders.map (fun p => (p.1, Int.ceil ((p.2 : ℚ) - (shortage : ℚ) * ((p.2 : ℚ) / (T : ℚ)))))

/-- Fractional.get_releases from the custom-strategies notebook: if the order
total is zero release nothing, otherwise allocate tentatively and run the
correction loop against the stock of the node's own SKU. -/
def getReleases (n : Node) : QtyMap :=
  let stock := stockSelf n
  let order_total := sumQ n.orders
  if order_total = 0 then []
  else adjust stock (tentative stock n.orders)

end Fractional

theorem sumQ_nonneg (l : QtyMap) (h : ∀ p ∈ l, 0 ≤ p.2) : 0 ≤ sumQ l := by
  induction l with
  | nil => simp
  | cons hd tl ih =>
    have h1 := h hd (by simp)
    have h2 : 0 ≤ sumQ tl := ih (fun p hp => h p (by simp [hp]))
    simp
    omega

theorem elem_le_sumQ (l : QtyMap) (h : ∀ p ∈ l, 0 ≤ p.2) (q : SkuCode × Int)
    (hq : q ∈ l) : q.2 ≤ sumQ l := by
  induction l with
  | nil => simp at hq
  | cons hd tl ih =>
    rcases List.mem_cons.mp hq with h1 | h2
    · subst h1
      have := sumQ_nonneg tl (fun p hp => h p (by simp [hp]))
      simp
      omega
    · have := ih (fun p hp => h p (by simp [hp])) h2
      have h0 := h hd (by simp)
      simp
      omega

theorem qget_nonneg (l : QtyMap) (h : ∀ p ∈ l, 0 ≤ p.2) (c : SkuCode) :
    0 ≤ qget l c := by
  induction l with
  | nil => simp [qget]
  | cons hd tl ih =>
    by_cases hc : hd.1 = c
    · simpa [qget, hc] using h hd (by simp)
    · simpa [qget, hc] using ih (fun p hp => h p (by simp [hp]))

/-- The relation between a corrected quantity map and the one it came from:
positions carry the same keys and values only ever decrease. -/
def KeyLe (a b : SkuCode × Int) : Prop := a.1 = b.1 ∧ a.2 ≤ b.2

theorem keyLe_forall₂_refl (l : QtyMap) : List.Forall₂ KeyLe l l := by
  induction l with
  | nil => exact List.Forall₂.nil
  | cons hd tl ih => exact List.Forall₂.cons ⟨rfl, le_refl _⟩ ih

theorem keyLe_forall₂_trans {l₁ l₂ l₃ : QtyMap} (h₁ : List.Forall₂ KeyLe l₁ l₂)
    (h₂ : List.Forall₂ KeyLe l₂ l₃) : List.Forall₂ KeyLe l₁ l₃ := by
  induction h₁ generalizing l₃ with
  | nil =>
    cases h₂
    exact List.Forall₂.nil
  | cons hab hrest ih =>
    cases h₂ with
    | cons hbc hrest₂ =>
      exact List.Forall₂.cons ⟨hab.1.trans hbc.1, hab.2.trans hbc.2⟩ (ih hrest₂)

theorem qget_le_of_forall₂ {l₁ l₂ : QtyMap} (h : List.Forall₂ KeyLe l₁ l₂)
    (c : SkuCode) : qget l₁ c ≤ qget l₂ c := by
  induction h with
  | nil => simp [qget]
  | cons hab hrest ih =>
    rename_i a b l₁' l₂'
    by_cases hc : b.1 = c
    · have : a.1 = c := hab.1.trans hc
      simpa [qget, hc, this] using hab.2
    · have : ¬a.1 = c := fun he => hc (hab.1.symm.trans he)
      simpa [qget, hc, this] using ih

theorem sumQ_eq_zero (l : QtyMap) (h : ∀ p ∈ l, p.2 = 0) : sumQ l = 0 := by
  induction l with
  | nil => simp
  | cons hd tl ih =>
    have h1 := h hd (by simp)
    have h2 := ih (fun p hp => h p (by simp [hp]))
    simp [h1, h2]

namespace Fractional

theorem decFirstMax_forall₂ (rel : QtyMap) :
    List.Forall₂ KeyLe (decFirstMax rel) rel := by
  induction rel with
  | nil => exact List.Forall₂.nil
  | cons hd tl ih =>
    obtain ⟨s, v⟩ := hd
    by_cases hc : tl.all (fun p => p.2 ≤ v)
    · simp only [decFirstMax, hc, if_true]
      exact List.Forall₂.cons ⟨rfl, by omega⟩ (keyLe_forall₂_refl tl)
    · simp only [decFirstMax, hc, if_false]
      exact List.Forall₂.cons ⟨rfl, le_refl _⟩ ih

theorem decFirstMax_nonneg (rel : QtyMap) (hpos : 1 ≤ sumQ rel)
    (h : ∀ p ∈ rel, 0 ≤ p.2) : ∀ p ∈ decFirstMax rel, 0 ≤ p.2 := by
  induction rel with
  | nil => simp [decFirstMax]
  | cons hd tl ih =>
    obtain ⟨s, v⟩ := hd
    by_cases hc : tl.all (fun p => p.2 ≤ v)
    · -- the head is the first maximum; it must be at least 1
      have hall : ∀ p ∈ tl, p.2 ≤ v := by
        intro p hp
        have := List.all_eq_true.mp hc p hp
        simpa using this
      have hv1 : 1 ≤ v := by
        by_contra hv
        have hv0 : v = 0 := by
          have := h (s, v) (by simp)
          simp at this
          omega
        have hsum0 : sumQ tl = 0 := by
          refine sumQ_eq_zero tl (fun p hp => ?_)
        -- every tail value is between 0 and v = 0
          have h1 := hall p hp
          have h2 : 0 ≤ p.2 := h p (by simp [hp])
          omega
        simp [hsum0, hv0] at hpos
      intro p hp
      simp only [decFirstMax, hc, if_true] at hp
      rcases List.mem_cons.mp hp with h1 | h2
      · subst h1
        simp
        omega
      · exact h p (by simp [h2])
    · intro p hp
      simp only [decFirstMax, hc, if_false] at hp
      rcases List.mem_cons.mp hp with h1 | h2
      · subst h1
        exact h _ (by simp)
      · have hex : ∃ w ∈ tl, v < w.2 := by
          by_contra hno
          push_neg at hno
          exact hc (List.all_eq_true.mpr (fun p hp => by simpa using hno p hp))
        obtain ⟨w, hw, hvw⟩ := hex
        have hwn : 0 ≤ w.2 := h w (by simp [hw])
        have hv0 : 0 ≤ v := by simpa using h (s, v) (by simp)
        have htlpos : 1 ≤ sumQ tl := by
          have := elem_le_sumQ tl (fun p hp => h p (by simp [hp])) w hw
          omega
        exact ih htlpos (fun p hp => h p (by simp [hp])) p h2

theorem adjust_nil (stock : Int) : adjust stock [] = [] := by
  rw [adjust]

theorem adjust_cons_pos (stock : Int) (p : SkuCode × Int) (rest : QtyMap)
    (h : stock < sumQ (p :: rest)) :
    adjust stock (p :: rest) = adjust stock (decFirstMax (p :: rest)) := by
  rw [adjust, if_pos h]

theorem adjust_eq_of_ge (stock : Int) (rel : QtyMap) (h : ¬ stock < sumQ rel) :
    adjust stock rel = rel := by
  cases rel with
  | nil => rw [adjust]
  | cons p rest => rw [adjust, if_neg h]

theorem adjust_sumQ_of_le (stock : Int) :
    ∀ rel : QtyMap, rel ≠ [] → stock ≤ sumQ rel →
      sumQ (adjust stock rel) = stock := by
  refine adjust.induct stock
    (motive := fun rel => rel ≠ [] → stock ≤ sumQ rel →
      sumQ (adjust stock rel) = stock) ?_ ?_ ?_
  · intro h _
    exact absurd rfl h
  · intro p rest hlt ih _ _
    rw [adjust_cons_pos stock p rest hlt]
    have hne := decFirstMax_ne_nil (p :: rest) (by simp)
    have hs := decFirstMax_sumQ (p :: rest) (by simp)
    exact ih hne (by omega)
  · intro p rest hge _ hle
    rw [adjust_eq_of_ge stock _ hge]
    omega

theorem adjust_forall₂ (stock : Int) :
    ∀ rel : QtyMap, List.Forall₂ KeyLe (adjust stock rel) rel := by
  refine adjust.induct stock
    (motive := fun rel => List.Forall₂ KeyLe (adjust stock rel) rel) ?_ ?_ ?_
  · show List.Forall₂ KeyLe (adjust stock []) []
    rw [adjust_nil]
    exact List.Forall₂.nil
  · intro p rest hlt ih
    rw [adjust_cons_pos stock p rest hlt]
    exact keyLe_forall₂_trans ih (decFirstMax_forall₂ (p :: rest))
  · intro p rest hge
    rw [adjust_eq_of_ge stock _ hge]
    exact keyLe_forall₂_refl _

theorem adjust_nonneg (stock : Int) (hstock : 0 ≤ stock) :
    ∀ rel : QtyMap, (∀ p ∈ rel, 0 ≤ p.2) → ∀ p ∈ adjust stock rel, 0 ≤ p.2 := by
  refine adjust.induct stock
    (motive := fun rel => (∀ p ∈ rel, 0 ≤ p.2) →
      ∀ p ∈ adjust stock rel, 0 ≤ p.2) ?_ ?_ ?_
  · intro _ p hp
    rw [adjust_nil] at hp
    simp at hp
  · intro p rest hlt ih hall q hq
    rw [adjust_cons_pos stock p rest hlt] at hq
    exact ih (decFirstMax_nonneg (p :: rest) (by omega) hall) q hq
  · intro p rest hge hall q hq
    rw [adjust_eq_of_ge stock _ hge] at hq
    exact hall q hq

theorem sum_le_sum_ceil : ∀ l : List ℚ,
    l.sum ≤ (((l.map fun x => (⌈x⌉ : Int)).sum : Int) : ℚ) := by
  intro l
  induction l with
  | nil => simp
  | cons x xs ih =>
    simp only [List.map_cons, List.sum_cons, Int.cast_add]
    have := Int.le_ceil x
    linarith

theorem rel_sum_linear (sh T : ℚ) : ∀ l : QtyMap,
    (l.map fun p => (p.2 : ℚ) - sh * ((p.2 : ℚ) / T)).sum
      = (1 - sh / T) * (sumQ l : ℚ) := by
  intro l
  induction l with
  | nil => simp
  | cons x xs ih =>
    simp only [List.map_cons, List.sum_cons, sumQ_cons, ih]
    push_cast
    ring

theorem tentative_sumQ_ge (stock : Int) (orders : QtyMap)
    (hT : sumQ orders ≠ 0) (hS : stock ≤ sumQ orders) :
    stock ≤ sumQ (tentative stock orders) := by
  have hmax : max (sumQ orders - stock) 0 = sumQ orders - stock := by omega
  have hcast : ((sumQ orders : Int) : ℚ) ≠ 0 := by exact_mod_cast hT
  have hsum :
      ((orders.map fun p => (p.2 : ℚ) -
          ((max (sumQ orders - stock) 0 : Int) : ℚ) *
            ((p.2 : ℚ) / ((sumQ orders : Int) : ℚ))).sum : ℚ)
        = (stock : ℚ) := by
    rw [rel_sum_linear]
    rw [hmax]
    field_simp
  have hle := sum_le_sum_ceil
    (orders.map fun p => (p.2 : ℚ) -
      ((max (sumQ orders - stock) 0 : Int) : ℚ) *
        ((p.2 : ℚ) / ((sumQ orders : Int) : ℚ)))
  rw [hsum] at hle
  have : sumQ (tentative stock orders)
      = ((orders.map fun p => (p.2 : ℚ) -
          ((max (sumQ orders - stock) 0 : Int) : ℚ) *
            ((p.2 : ℚ) / ((sumQ orders : Int) : ℚ))).map
              fun x => (⌈x⌉ : Int)).sum := by
    simp only [tentative, sumQ, List.map_map]
    congr 1
  rw [this]
  exact_mod_cast hle

theorem tentative_eq_of_le (stock : Int) (orders : QtyMap)
    (hle : sumQ orders - stock ≤ 0) : tentative stock orders = orders := by
  have hmax : max (sumQ orders - stock) 0 = 0 := by omega
  unfold tentative
  simp only [hmax]
  simp [Prod.mk.eta]

theorem forall₂_map_keyLe (f : SkuCode × Int → Int) (l : QtyMap)
    (h : ∀ p ∈ l, f p ≤ p.2) :
    List.Forall₂ KeyLe (l.map fun p => (p.1, f p)) l := by
  induction l with
  | nil => exact List.Forall₂.nil
  | cons x xs ih =>
    exact List.Forall₂.cons ⟨rfl, h x (by simp)⟩
      (ih fun p hp => h p (by simp [hp]))

theorem tentative_forall₂ (stock : Int) (orders : QtyMap)
    (ho : ∀ p ∈ orders, 0 ≤ p.2) :
    List.Forall₂ KeyLe (tentative stock orders) orders := by
  have hT : 0 ≤ sumQ orders := sumQ_nonneg orders ho
  refine forall₂_map_keyLe _ orders (fun p hp => ?_)
  refine Int.ceil_le.mpr ?_
  have hv : (0 : ℚ) ≤ (p.2 : ℚ) := by exact_mod_cast ho p hp
  have hsh : (0 : ℚ) ≤ ((max (sumQ orders - stock) 0 : Int) : ℚ) := by
    have : (0 : Int) ≤ max (sumQ orders - stock) 0 := le_max_right _ _
    exact_mod_cast this
  have hTq : (0 : ℚ) ≤ ((sumQ orders : Int) : ℚ) := by exact_mod_cast hT
  have : (0 : ℚ) ≤ ((max (sumQ orders - stock) 0 : Int) : ℚ) *
      ((p.2 : ℚ) / ((sumQ orders : Int) : ℚ)) :=
    mul_nonneg hsh (div_nonneg hv hTq)
  linarith

theorem tentative_nonneg (stock : Int) (orders : QtyMap) (hstock : 0 ≤ stock)
    (ho : ∀ p ∈ orders, 0 ≤ p.2) : ∀ p ∈ tentative stock orders, 0 ≤ p.2 := by
  intro p hp
  unfold tentative at hp
  simp only [List.mem_map] at hp
  obtain ⟨q, hq, rfl⟩ := hp
  have hv : (0 : ℚ) ≤ (q.2 : ℚ) := by exact_mod_cast ho q hq
  have hT : 0 ≤ sumQ orders := sumQ_nonneg orders ho
  refine Int.ceil_nonneg ?_
  by_cases hT0 : sumQ orders = 0
  · simp [hT0, hv]
  · have hTq : (0 : ℚ) < ((sumQ orders : Int) : ℚ) := by
      have : 0 < sumQ orders := lt_of_le_of_ne hT (Ne.symm hT0)
      exact_mod_cast this
    have hshle : ((max (sumQ orders - stock) 0 : Int) : ℚ)
        ≤ ((sumQ orders : Int) : ℚ) := by
      have : max (sumQ orders - stock) 0 ≤ sumQ orders := by omega
      exact_mod_cast this
    have hfrac : (0 : ℚ) ≤ (q.2 : ℚ) / ((sumQ orders : Int) : ℚ) :=
      div_nonneg hv (le_of_lt hTq)
    have hmul : ((max (sumQ orders - stock) 0 : Int) : ℚ) *
        ((q.2 : ℚ) / ((sumQ orders : Int) : ℚ))
        ≤ ((sumQ orders : Int) : ℚ) * ((q.2 : ℚ) / ((sumQ orders : Int) : ℚ)) :=
      mul_le_mul_of_nonneg_right hshle hfrac
    have hid : ((sumQ orders : Int) : ℚ) *
        ((q.2 : ℚ) / ((sumQ orders : Int) : ℚ)) = (q.2 : ℚ) := by
      field_simp
    linarith [hmul, hid.le]

theorem getReleases_of_total_zero (n : Node) (h : sumQ n.orders = 0) :
    getReleases n = [] := by
  simp [getReleases, h]

theorem getReleases_eq_adjust (n : Node) (h : sumQ n.orders ≠ 0) :
    getReleases n = adjust (stockSelf n) (tentative (stockSelf n) n.orders) := by
  simp [getReleases, h]

theorem ne_nil_of_sumQ (l : QtyMap) (h : sumQ l ≠ 0) : l ≠ [] := by
  intro he
  subst he
  simp at h

theorem tentative_ne_nil (stock : Int) (orders : QtyMap) (h : orders ≠ []) :
    tentative stock orders ≠ [] := by
  unfold tentative
  simpa using h

/-- Total quantity released by Fractional: exactly the lesser of the order
total and the stock of the node's own SKU. -/
theorem getReleases_sumQ (n : Node) (hS : 0 ≤ stockSelf n)
    (hT : 0 < sumQ n.orders) :
    sumQ (getReleases n) = min (sumQ n.orders) (stockSelf n) := by
  rw [getReleases_eq_adjust n (by omega)]
  by_cases hc : stockSelf n < sumQ n.orders
  · rw [min_eq_right (le_of_lt hc)]
    refine adjust_sumQ_of_le _ _ ?_ ?_
    · exact tentative_ne_nil _ _ (ne_nil_of_sumQ _ (by omega))
    · exact tentative_sumQ_ge _ _ (by omega) (le_of_lt hc)
  · rw [min_eq_left (by omega), tentative_eq_of_le _ _ (by omega),
      adjust_eq_of_ge _ _ hc]

theorem adjustFuel_adjust_aux (stock : Int) :
    ∀ (m : Nat) (rel : QtyMap), (sumQ rel - stock).toNat = m → rel ≠ [] →
      adjustFuel m stock rel = some (adjust stock rel) := by
  intro m
  induction m using Nat.strong_induction_on with
  | _ m ih =>
    intro rel hm hne
    by_cases hlt : stock < sumQ rel
    · have hm1 : 1 ≤ m := by omega
      obtain ⟨k, rfl⟩ : ∃ k, m = k + 1 := ⟨m - 1, by omega⟩
      have hd := decFirstMax_ne_nil rel hne
      have hs := decFirstMax_sumQ rel hne
      have hk : (sumQ (decFirstMax rel) - stock).toNat = k := by omega
      rw [adjustFuel, if_pos hlt, ih k (by omega) _ hk hd]
      cases rel with
      | nil => exact absurd rfl hne
      | cons p rest => rw [adjust_cons_pos stock p rest hlt]
    · rw [adjust_eq_of_ge stock rel hlt]
      cases m with
      | zero => rw [adjustFuel, if_neg hlt]
      | succ k => rw [adjustFuel, if_neg hlt]

end Fractional

/-- C1: for a node with nonnegative own-SKU stock, when the order total T is
positive, Fractional.get_releases returns an integer-valued map whose total is
min(T, stock of self) when the shortage max(T - stock, 0) is positive and T
otherwise; when T is zero it returns the empty map. -/
theorem fractional_release_total (n : Node) (hS : 0 ≤ stockSelf n) :
    (0 < sumQ n.orders →
      sumQ (Fractional.getReleases n) =
        if 0 < max (sumQ n.orders - stockSelf n) 0 then
          min (sumQ n.orders) (stockSelf n)
        else sumQ n.orders) ∧
    (sumQ n.orders = 0 → Fractional.getReleases n = []) := by
  constructor
  · intro hT
    rw [Fractional.getReleases_sumQ n hS hT]
    by_cases hc : stockSelf n < sumQ n.orders
    · rw [if_pos (by omega)]
    · rw [if_neg (by omega), min_eq_left (by omega)]
  · exact Fractional.getReleases_of_total_zero n

/-- Witness for C1 at the shortage scenario of the spec: stock 9 against
orders X:6 and Y:6. -/
theorem fractional_release_total_witness :
    0 ≤ stockSelf ⟨"S", ⟨10, 5, 1⟩, 0, [("S", 9)], 0,
        [("X", 6), ("Y", 6)], []⟩ ∧
    ((0 < sumQ (Node.orders ⟨"S", ⟨10, 5, 1⟩, 0, [("S", 9)], 0,
        [("X", 6), ("Y", 6)], []⟩) →
      sumQ (Fractional.getReleases ⟨"S", ⟨10, 5, 1⟩, 0, [("S", 9)], 0,
        [("X", 6), ("Y", 6)], []⟩) =
        if 0 < max (sumQ (Node.orders ⟨"S", ⟨10, 5, 1⟩, 0, [("S", 9)], 0,
            [("X", 6), ("Y", 6)], []⟩) -
            stockSelf ⟨"S", ⟨10, 5, 1⟩, 0, [("S", 9)], 0,
            [("X", 6), ("Y", 6)], []⟩) 0 then
          min (sumQ (Node.orders ⟨"S", ⟨10, 5, 1⟩, 0, [("S", 9)], 0,
            [("X", 6), ("Y", 6)], []⟩))
            (stockSelf ⟨"S", ⟨10, 5, 1⟩, 0, [("S", 9)], 0,
            [("X", 6), ("Y", 6)], []⟩)
        else sumQ (Node.orders ⟨"S", ⟨10, 5, 1⟩, 0, [("S", 9)], 0,
            [("X", 6), ("Y", 6)], []⟩)) ∧
    (sumQ (Node.orders ⟨"S", ⟨10, 5, 1⟩, 0, [("S", 9)], 0,
        [("X", 6), ("Y", 6)], []⟩) = 0 →
      Fractional.getReleases ⟨"S", ⟨10, 5, 1⟩, 0, [("S", 9)], 0,
        [("X", 6), ("Y", 6)], []⟩ = [])) :=
  ⟨by decide, fractional_release_total _ (by decide)⟩

/-- C3: for a node with nonnegative own-SKU stock and nonnegative order
entries, the Fractional releases total at most the stock of the node's own
SKU and each child receives at most what it ordered. -/
theorem fractional_release_feasible (n : Node) (hS : 0 ≤ stockSelf n)
    (ho : ∀ p ∈ n.orders, 0 ≤ p.2) :
    sumQ (Fractional.getReleases n) ≤ stockSelf n ∧
    ∀ c, qget (Fractional.getReleases n) c ≤ qget n.orders c := by
  constructor
  · by_cases hT : sumQ n.orders = 0
    · rw [Fractional.getReleases_of_total_zero n hT]
      simpa using hS
    · have hT' : 0 < sumQ n.orders :=
        lt_of_le_of_ne (sumQ_nonneg _ ho) (Ne.symm hT)
      rw [Fractional.getReleases_sumQ n hS hT']
      exact min_le_right _ _
  · intro c
    by_cases hT : sumQ n.orders = 0
    · rw [Fractional.getReleases_of_total_zero n hT]
      simpa [qget] using qget_nonneg _ ho c
    · rw [Fractional.getReleases_eq_adjust n hT]
      exact qget_le_of_forall₂
        (keyLe_forall₂_trans (Fractional.adjust_forall₂ _ _)
          (Fractional.tentative_forall₂ _ _ ho)) c

/-- Witness for C3 at the shortage scenario: stock 9, orders X:6 and Y:6. -/
theorem fractional_release_feasible_witness :
    0 ≤ stockSelf ⟨"S", ⟨10, 5, 1⟩, 0, [("S", 9)], 0,
        [("X", 6), ("Y", 6)], []⟩ ∧
    (∀ p ∈ Node.orders ⟨"S", ⟨10, 5, 1⟩, 0, [("S", 9)], 0,
        [("X", 6), ("Y", 6)], []⟩, 0 ≤ p.2) ∧
    (sumQ (Fractional.getReleases ⟨"S", ⟨10, 5, 1⟩, 0, [("S", 9)], 0,
        [("X", 6), ("Y", 6)], []⟩) ≤
      stockSelf ⟨"S", ⟨10, 5, 1⟩, 0, [("S", 9)], 0,
        [("X", 6), ("Y", 6)], []⟩ ∧
    ∀ c, qget (Fractional.getReleases ⟨"S", ⟨10, 5, 1⟩, 0, [("S", 9)], 0,
        [("X", 6), ("Y", 6)], []⟩) c ≤
      qget (Node.orders ⟨"S", ⟨10, 5, 1⟩, 0, [("S", 9)], 0,
        [("X", 6), ("Y", 6)], []⟩) c) :=
  ⟨by decide, by decide, fractional_release_feasible _ (by decide) (by decide)⟩

/-- C8: with nonnegative own-SKU stock, nonnegative order entries and a
positive order total, every entry of the Fractional releases is nonnegative:
the tentative ceilings are nonnegative and the correction loop only ever
decrements an entry that is at least one. -/
theorem fractional_release_nonneg (n : Node) (hS : 0 ≤ stockSelf n)
    (ho : ∀ p ∈ n.orders, 0 ≤ p.2) (hT : 0 < sumQ n.orders) :
    ∀ p ∈ Fractional.getReleases n, 0 ≤ p.2 := by
  rw [Fractional.getReleases_eq_adjust n (by omega)]
  exact Fractional.adjust_nonneg _ hS _ (Fractional.tentative_nonneg _ _ hS ho)

/-- Witness for C8 at the shortage scenario: stock 9, orders X:6 and Y:6. -/
theorem fractional_release_nonneg_witness :
    0 ≤ stockSelf ⟨"S", ⟨10, 5, 1⟩, 0, [("S", 9)], 0,
        [("X", 6), ("Y", 6)], []⟩ ∧
    (∀ p ∈ Node.orders ⟨"S", ⟨10, 5, 1⟩, 0, [("S", 9)], 0,
        [("X", 6), ("Y", 6)], []⟩, 0 ≤ p.2) ∧
    0 < sumQ (Node.orders ⟨"S", ⟨10, 5, 1⟩, 0, [("S", 9)], 0,
        [("X", 6), ("Y", 6)], []⟩) ∧
    ∀ p ∈ Fractional.getReleases ⟨"S", ⟨10, 5, 1⟩, 0, [("S", 9)], 0,
        [("X", 6), ("Y", 6)], []⟩, 0 ≤ p.2 :=
  ⟨by decide, by decide, by decide,
    fractional_release_nonneg _ (by decide) (by decide) (by decide)⟩

/-- C9: the correction loop of Fractional.get_releases terminates on every
nonempty release map: decrementing the first maximal entry lowers the total by
exactly one per iteration, so fuel equal to the initial excess of the total
over the fixed integer stock lets the fueled loop reach the result of the
recursive loop. -/
theorem fractional_release_terminates (stock : Int) (rel : QtyMap)
    (h : rel ≠ []) :
    sumQ (Fractional.decFirstMax rel) = sumQ rel - 1 ∧
    Fractional.adjustFuel ((sumQ rel - stock).toNat) stock rel
      = some (Fractional.adjust stock rel) :=
  ⟨Fractional.decFirstMax_sumQ rel h,
    Fractional.adjustFuel_adjust_aux stock _ rel rfl h⟩

/-- Witness for C9: orders X:6 and Y:6, stock 9. -/
theorem fractional_release_terminates_witness :
    ([("X", (6 : Int)), ("Y", 6)] : QtyMap) ≠ [] ∧
    (sumQ (Fractional.decFirstMax [("X", 6), ("Y", 6)]) =
        sumQ [("X", 6), ("Y", 6)] - 1 ∧
    Fractional.adjustFuel ((sumQ [("X", 6), ("Y", 6)] - 9).toNat) 9
        [("X", 6), ("Y", 6)]
      = some (Fractional.adjust 9 [("X", 6), ("Y", 6)])) :=
  ⟨by decide, fractional_release_terminates 9 [("X", 6), ("Y", 6)] (by decide)⟩

/-- A BOM arc: number units of the source (supplier) SKU are consumed per
unit of the destination (consumer) SKU. -/
structure Edge where
  source : SkuCode
  destination : SkuCode
  number : Int
deriving DecidableEq, Repr

/-- The supply chain: nodes keyed by SKU plus BOM edges. -/
structure SupplyChain where
  nodes : List Node
  edges : List Edge
deriving DecidableEq, Repr

/-- Find the node carrying a SKU. -/
def getNode (sc : SupplyChain) (sku : SkuCode) : Option Node :=
  sc.nodes.find? (fun n => n.sku == sku)

/-- Modelled from the spec: the bom accessor of the supply-chain module,
which is not among the sources at hand — the (parent sku, multiplicity)
pairs of BOM edges pointing at the given sku. -/
def bom (sc : SupplyChain) (sku : SkuCode) : List (SkuCode × Int) :=
  (sc.edges.filter (fun e => e.destination == sku)).map
    (fun e => (e.source, e.number))

/-- Modelled from the spec: children of a sku — the destinations of BOM
edges leaving it (the successor accessor of the supply-chain module). -/
def children (sc : SupplyChain) (sku : SkuCode) : List SkuCode :=
  (sc.edges.filter (fun e => e.source == sku)).map (fun e => e.destination)

/-- In-transit quantity of the given sku on a pipeline. -/
def inTransit (p : List Receipt) (sku : SkuCode) : Int :=
  ((p.filter (fun r => r.sku_code == sku)).map Receipt.quantity).sum

/-- Modelled from the spec: a node's own stock position, on-hand stock of its
own SKU plus in-transit of its own SKU; zero for an unknown sku. -/
def stockPosition (sc : SupplyChain) (sku : SkuCode) : Int :=
  match getNode sc sku with
  | none => 0
  | some n => qget n.stock n.sku + inTransit n.pipeline n.sku

/-- Modelled from the spec: the stock of component p held at the node
carrying the given sku, read from that node's stock map. -/
def stockOfAt (sc : SupplyChain) (sku p : SkuCode) : Int :=
  match getNode sc sku with
  | none => 0
  | some n => qget n.stock p

/-- Minimum of a list of integers, zero on the empty list (only applied to
nonempty lists). -/
def minList : List Int → Int
  | [] => 0
  | x :: xs => xs.foldl min x

/-- Modelled from the spec: inventory_assemblies_feasible of the supply-chain
module, which is not among the sources at hand.  Start from the node's own
stock position; for every parent component p add the floor of (stock of p
held at the node plus what could be assembled at p further upstream) divided
by the multiplicity, taking the minimum across all parent components.  The
recursion climbs the acyclic BOM, rendered with a fuel argument; any fuel at
least the longest ancestor chain gives the same value. -/
def feasibleAux (sc : SupplyChain) : Nat → SkuCode → Int
  | 0, sku => stockPosition sc sku
  | fuel + 1, sku =>
    let ps := bom sc sku
    if ps = [] then stockPosition sc sku
    else
      stockPosition sc sku +
        minList (ps.map (fun pm =>
          Int.fdiv (stockOfAt sc sku pm.1 + feasibleAux sc fuel pm.1) pm.2))

/-- Feasibility entry point: the node count bounds every ancestor chain in an
acyclic BOM. -/
def inventoryAssembliesFeasible (sc : SupplyChain) (sku : SkuCode) : Int :=
  feasibleAux sc sc.nodes.length sku

/-- Every ancestor chain from the sku upward is at most the given length. -/
def depthLe (sc : SupplyChain) : Nat → SkuCode → Bool
  | 0, sku => bom sc sku = []
  | fuel + 1, sku => (bom sc sku).all (fun pm => depthLe sc fuel pm.1)

theorem feasibleAux_stable (sc : SupplyChain) :
    ∀ (f g : Nat) (sku : SkuCode), depthLe sc f sku = true → f ≤ g →
      feasibleAux sc g sku = feasibleAux sc f sku := by
  intro f
  induction f with
  | zero =>
    intro g sku hd _
    have hb : bom sc sku = [] := by simpa [depthLe] using hd
    cases g with
    | zero => rfl
    | succ g' => simp [feasibleAux, hb]
  | succ f' ih =>
    intro g sku hd hle
    obtain ⟨g', rfl⟩ : ∃ g', g = g' + 1 := ⟨g - 1, by omega⟩
    have hall : ∀ pm ∈ bom sc sku, depthLe sc f' pm.1 = true := by
      simpa [depthLe, List.all_eq_true] using hd
    by_cases hb : bom sc sku = []
    · simp [feasibleAux, hb]
    · simp only [feasibleAux, hb, if_neg, ite_false]
      congr 2
      refine List.map_congr_left (fun pm hpm => ?_)
      have h1 : feasibleAux sc g' pm.1 = feasibleAux sc f' pm.1 :=
        ih g' pm.1 (hall pm hpm) (by omega)
      rw [h1]

/-- The BOM-with-multiplicity scenario of the spec: assembly A requires two
units of C and one unit of D, with stock A:0, C:7, D:2 held at A. -/
def scenario3 : SupplyChain :=
  { nodes :=
      [ { sku := "A", data := ⟨30, 25, 1⟩, llc := 0,
          stock := [("A", 0), ("C", 7), ("D", 2)], backorders := 0,
          orders := [], pipeline := [] },
        { sku := "C", data := ⟨150, 20, 1⟩, llc := 1, stock := [],
          backorders := 0, orders := [], pipeline := [] },
        { sku := "D", data := ⟨200, 20, 2⟩, llc := 1, stock := [],
          backorders := 0, orders := [], pipeline := [] } ],
    edges :=
      [ { source := "C", destination := "A", number := 2 },
        { source := "D", destination := "A", number := 1 } ] }

/-- C5: inventory_assemblies_feasible of a node with no parents is its own
stock position; with parents it adds the minimum over all parent components
of the floor of (component stock held at the node plus units producible at
the parent upstream) divided by the multiplicity; on the
BOM-with-multiplicity scenario it returns 2. -/
theorem feasible_characterization (sc : SupplyChain) (sku : SkuCode)
    (hd : depthLe sc sc.nodes.length sku = true) :
    (bom sc sku = [] →
      inventoryAssembliesFeasible sc sku = stockPosition sc sku) ∧
    (bom sc sku ≠ [] →
      inventoryAssembliesFeasible sc sku =
        stockPosition sc sku +
          minList ((bom sc sku).map (fun pm =>
            Int.fdiv (stockOfAt sc sku pm.1 +
              inventoryAssembliesFeasible sc pm.1) pm.2))) ∧
    inventoryAssembliesFeasible scenario3 "A" = 2 := by
  refine ⟨?_, ?_, by decide⟩
  · intro hb
    unfold inventoryAssembliesFeasible
    cases hN : sc.nodes.length with
    | zero => rfl
    | succ m => simp [feasibleAux, hb]
  · intro hb
    have hN : 1 ≤ sc.nodes.length := by
      rcases Nat.eq_zero_or_pos sc.nodes.length with h0 | h1
      · rw [h0] at hd
        have : bom sc sku = [] := by simpa [depthLe] using hd
        exact absurd this hb
      · exact h1
    obtain ⟨m, hm⟩ : ∃ m, sc.nodes.length = m + 1 :=
      ⟨sc.nodes.length - 1, by omega⟩
    have hall : ∀ pm ∈ bom sc sku, depthLe sc m pm.1 = true := by
      rw [hm] at hd
      simpa [depthLe, List.all_eq_true] using hd
    have hstep : feasibleAux sc (m + 1) sku =
        stockPosition sc sku +
          minList ((bom sc sku).map (fun pm =>
            Int.fdiv (stockOfAt sc sku pm.1 + feasibleAux sc m pm.1) pm.2)) := by
      simp only [feasibleAux]
      rw [if_neg hb]
    unfold inventoryAssembliesFeasible
    rw [hm, hstep]
    congr 2
    refine List.map_congr_left (fun pm hpm => ?_)
    rw [feasibleAux_stable sc m (m + 1) pm.1 (hall pm hpm) (by omega)]

/-- Witness for C5: the BOM-with-multiplicity scenario itself, at assembly A. -/
theorem feasible_characterization_witness :
    depthLe scenario3 scenario3.nodes.length "A" = true ∧
    ((bom scenario3 "A" = [] →
      inventoryAssembliesFeasible scenario3 "A" = stockPosition scenario3 "A") ∧
    (bom scenario3 "A" ≠ [] →
      inventoryAssembliesFeasible scenario3 "A" =
        stockPosition scenario3 "A" +
          minList ((bom scenario3 "A").map (fun pm =>
            Int.fdiv (stockOfAt scenario3 "A" pm.1 +
              inventoryAssembliesFeasible scenario3 pm.1) pm.2))) ∧
    inventoryAssembliesFeasible scenario3 "A" = 2) :=
  ⟨by decide, feasible_characterization scenario3 "A" (by decide)⟩

namespace RSQ

/-- RSQ.get_orders from the custom-strategies notebook: at review periods
where the feasible inventory sits below the reorder level, order the reorder
shortfall rounded up to a whole multiple of the order quantity, else zero;
the returned map holds that single entry keyed by the node.  none embeds the
Python ZeroDivisionError raised when review_time is zero (for every period),
or when order_quantity is zero and the reorder branch is taken. -/
def getOrders (sc : SupplyChain) (n : Node) (period : Int) : Option QtyMap :=
  let inventory := inventoryAssembliesFeasible sc n.sku
  if n.data.review_time = 0 then none
  else if period % n.data.review_time = 0 ∧ inventory < n.data.reorder_level
  then
    if n.data.order_quantity = 0 then none
    else some [(n.sku,
      Int.ceil (((n.data.reorder_level - inventory : Int) : ℚ) /
        ((n.data.order_quantity : Int) : ℚ)) * n.data.order_quantity)]
  else some [(n.sku, 0)]

/-- RSQ.get_orders as a state-passing call: the source reads the node and the
supply chain but mutates neither, so the call hands the state back unchanged
beside its result. -/
def getOrdersCall (sc : SupplyChain) (n : Node) (period : Int) :
    (SupplyChain × Node) × Option QtyMap :=
  ((sc, n), getOrders sc n period)

end RSQ

/-- C2: whenever the evaluation is defined (review_time nonzero, and
order_quantity nonzero so the reorder branch cannot divide by zero),
RSQ.get_orders returns a map with exactly one entry keyed by the node's own
SKU, whose quantity is the reorder shortfall rounded up to a whole multiple
of order_quantity at review periods with feasible inventory below the
reorder level, and zero otherwise. -/
theorem rsq_get_orders_spec (sc : SupplyChain) (n : Node) (period : Int)
    (hrt : n.data.review_time ≠ 0) (hoq : n.data.order_quantity ≠ 0) :
    RSQ.getOrders sc n period =
      some [(n.sku,
        if period % n.data.review_time = 0 ∧
            inventoryAssembliesFeasible sc n.sku < n.data.reorder_level then
          Int.ceil (((n.data.reorder_level -
              inventoryAssembliesFeasible sc n.sku : Int) : ℚ) /
            ((n.data.order_quantity : Int) : ℚ)) * n.data.order_quantity
        else 0)] := by
  unfold RSQ.getOrders
  simp only [if_neg hrt]
  by_cases hc : period % n.data.review_time = 0 ∧
      inventoryAssembliesFeasible sc n.sku < n.data.reorder_level
  · rw [if_pos hc, if_neg hoq, if_pos hc]
  · rw [if_neg hc, if_neg hc]

/-- Witness for C2: a single node at period 1 with review_time 1, stock 7
against reorder level 25. -/
theorem rsq_get_orders_spec_witness :
    (Node.data ⟨"A", ⟨30, 25, 1⟩, 0, [("A", 7)], 0, [], []⟩).review_time ≠ 0 ∧
    (Node.data ⟨"A", ⟨30, 25, 1⟩, 0, [("A", 7)], 0, [], []⟩).order_quantity ≠ 0 ∧
    RSQ.getOrders ⟨[⟨"A", ⟨30, 25, 1⟩, 0, [("A", 7)], 0, [], []⟩], []⟩
        ⟨"A", ⟨30, 25, 1⟩, 0, [("A", 7)], 0, [], []⟩ 1 =
      some [((Node.sku ⟨"A", ⟨30, 25, 1⟩, 0, [("A", 7)], 0, [], []⟩),
        if (1 : Int) % (Node.data ⟨"A", ⟨30, 25, 1⟩, 0, [("A", 7)], 0, [], []⟩).review_time = 0 ∧
            inventoryAssembliesFeasible
              ⟨[⟨"A", ⟨30, 25, 1⟩, 0, [("A", 7)], 0, [], []⟩], []⟩
              (Node.sku ⟨"A", ⟨30, 25, 1⟩, 0, [("A", 7)], 0, [], []⟩) <
            (Node.data ⟨"A", ⟨30, 25, 1⟩, 0, [("A", 7)], 0, [], []⟩).reorder_level then
          Int.ceil ((((Node.data ⟨"A", ⟨30, 25, 1⟩, 0, [("A", 7)], 0, [], []⟩).reorder_level -
              inventoryAssembliesFeasible
                ⟨[⟨"A", ⟨30, 25, 1⟩, 0, [("A", 7)], 0, [], []⟩], []⟩
                (Node.sku ⟨"A", ⟨30, 25, 1⟩, 0, [("A", 7)], 0, [], []⟩) : Int) : ℚ) /
            (((Node.data ⟨"A", ⟨30, 25, 1⟩, 0, [("A", 7)], 0, [], []⟩).order_quantity : Int) : ℚ)) *
            (Node.data ⟨"A", ⟨30, 25, 1⟩, 0, [("A", 7)], 0, [], []⟩).order_quantity
        else 0)] :=
  ⟨by decide, by decide,
    rsq_get_orders_spec _ _ 1 (by decide) (by decide)⟩

/-- C7: calling RSQ.get_orders twice with node, supply-chain state and period
unchanged between the calls returns equal order maps, and the call leaves the
state unchanged. -/
theorem rsq_idempotent (sc : SupplyChain) (n : Node) (period : Int) :
    (RSQ.getOrdersCall (RSQ.getOrdersCall sc n period).1.1
        (RSQ.getOrdersCall sc n period).1.2 period).2
      = (RSQ.getOrdersCall sc n period).2 ∧
    (RSQ.getOrdersCall sc n period).1 = (sc, n) :=
  ⟨rfl, rfl⟩

/-- C10: when the review_time policy parameter is zero, the evaluation of
period mod review_time in RSQ.get_orders fails in the source for every
period; the embedding returns none. -/
theorem rsq_review_time_zero (sc : SupplyChain) (n : Node) (period : Int)
    (h : n.data.review_time = 0) : RSQ.getOrders sc n period = none := by
  simp [RSQ.getOrders, h]

/-- Witness for C10: a node whose review_time is zero, at period 1. -/
theorem rsq_review_time_zero_witness :
    (Node.data ⟨"Z", ⟨30, 25, 0⟩, 0, [], 0, [], []⟩).review_time = 0 ∧
    RSQ.getOrders ⟨[⟨"Z", ⟨30, 25, 0⟩, 0, [], 0, [], []⟩], []⟩
      ⟨"Z", ⟨30, 25, 0⟩, 0, [], 0, [], []⟩ 1 = none :=
  ⟨by decide, rsq_review_time_zero _ _ 1 (by decide)⟩

namespace Pipeline

/-- Modelled from the spec: age of suppy.pipeline, whose module is not among
the sources at hand — decrement eta on every remaining receipt by one. -/
def age (q : List Receipt) : List Receipt :=
  q.map (fun r => { r with eta := r.eta - 1 })

/-- Modelled from the spec: pop_matured — remove and return all receipts
whose eta is zero, in insertion order; the first component holds the matured
receipts, the second the remaining pipeline. -/
def popMatured (q : List Receipt) : List Receipt × List Receipt :=
  (q.filter (fun r => r.eta == 0), q.filter (fun r => !(r.eta == 0)))

/-- Aging applied over a number of whole periods. -/
def ageIter : Nat → List Receipt → List Receipt
  | 0, q => q
  | k + 1, q => ageIter k (age q)

theorem age_getElem? (q : List Receipt) (i : Nat) :
    (age q)[i]? = (q[i]?).map (fun x => { x with eta := x.eta - 1 }) := by
  simp [age]

theorem ageIter_getElem? : ∀ (k : Nat) (q : List Receipt) (i : Nat),
    (ageIter k q)[i]? = (q[i]?).map (fun x => { x with eta := x.eta - k })
  | 0, q, i => by
    cases hq : q[i]? with
    | none => simp [ageIter, hq]
    | some x =>
      cases x
      simp [ageIter, hq]
  | k + 1, q, i => by
    have hrec := ageIter_getElem? k (age q) i
    have hstep : ageIter (k + 1) q = ageIter k (age q) := rfl
    rw [hstep, hrec, age_getElem?]
    cases hq : q[i]? with
    | none => simp [hq]
    | some x =>
      cases x
      simp [hq]
      omega

end Pipeline

/-- C6: aging decrements every receipt's eta by exactly one while preserving
sku and quantity, pop_matured returns exactly the receipts with eta zero and
keeps exactly the others, and a receipt appended with eta L and quantity Q is
found after k agings with eta L - k and quantity Q, in particular with eta
zero — hence matured — after exactly L agings, quantity unchanged. -/
theorem pipeline_roundtrip (p : List Receipt) (r : Receipt) (hL : 0 ≤ r.eta) :
    (∀ (q : List Receipt) (i : Nat),
      (Pipeline.age q)[i]? =
        (q[i]?).map (fun x => { x with eta := x.eta - 1 })) ∧
    (∀ (q : List Receipt) (x : Receipt),
      (x ∈ (Pipeline.popMatured q).1 ↔ x ∈ q ∧ x.eta = 0) ∧
      (x ∈ (Pipeline.popMatured q).2 ↔ x ∈ q ∧ x.eta ≠ 0)) ∧
    (∀ k : Nat, (Pipeline.ageIter k (p ++ [r]))[p.length]? =
      some { r with eta := r.eta - k }) ∧
    { r with eta := 0 } ∈
      (Pipeline.popMatured (Pipeline.ageIter r.eta.toNat (p ++ [r]))).1 := by
  have hmem : ∀ (q : List Receipt) (x : Receipt),
      (x ∈ (Pipeline.popMatured q).1 ↔ x ∈ q ∧ x.eta = 0) ∧
      (x ∈ (Pipeline.popMatured q).2 ↔ x ∈ q ∧ x.eta ≠ 0) := by
    intro q x
    constructor
    · simp [Pipeline.popMatured, List.mem_filter]
    · simp [Pipeline.popMatured, List.mem_filter]
  have htrack : ∀ k : Nat, (Pipeline.ageIter k (p ++ [r]))[p.length]? =
      some { r with eta := r.eta - k } := by
    intro k
    rw [Pipeline.ageIter_getElem?, List.getElem?_concat_length]
    rfl
  refine ⟨Pipeline.age_getElem?, hmem, htrack, ?_⟩
  have h0 := htrack r.eta.toNat
  have heta : r.eta - (r.eta.toNat : Int) = 0 := by omega
  rw [heta] at h0
  have hin : { r with eta := 0 } ∈ Pipeline.ageIter r.eta.toNat (p ++ [r]) :=
    List.getElem?_mem h0
  exact ((hmem _ _).1).mpr ⟨hin, rfl⟩

/-- Witness for C6 at the pipeline-aging scenario of the spec: a receipt of
sku A, eta 2 and quantity 5 appended to an empty pipeline. -/
theorem pipeline_roundtrip_witness :
    0 ≤ Receipt.eta ⟨"A", 2, 5⟩ ∧
    ((∀ (q : List Receipt) (i : Nat),
      (Pipeline.age q)[i]? =
        (q[i]?).map (fun x => { x with eta := x.eta - 1 })) ∧
    (∀ (q : List Receipt) (x : Receipt),
      (x ∈ (Pipeline.popMatured q).1 ↔ x ∈ q ∧ x.eta = 0) ∧
      (x ∈ (Pipeline.popMatured q).2 ↔ x ∈ q ∧ x.eta ≠ 0)) ∧
    (∀ k : Nat, (Pipeline.ageIter k (([] : List Receipt) ++ [⟨"A", 2, 5⟩]))[List.length ([] : List Receipt)]? =
      some { (⟨"A", 2, 5⟩ : Receipt) with eta := Receipt.eta ⟨"A", 2, 5⟩ - k }) ∧
    { (⟨"A", 2, 5⟩ : Receipt) with eta := 0 } ∈
      (Pipeline.popMatured (Pipeline.ageIter (Receipt.eta ⟨"A", 2, 5⟩).toNat
        (([] : List Receipt) ++ [⟨"A", 2, 5⟩]))).1) :=
  ⟨by decide, pipeline_roundtrip [] ⟨"A", 2, 5⟩ (by decide)⟩

/-- The supply chain constructed in the simulator notebook: consumer nodes A
and B at llc 0, supplier nodes C and D at llc 1, BOM edges C to A with
multiplicity 2, D to A with 1 and D to B with 3; the llc values are passed
explicitly by the constructor call. -/
def simChain : SupplyChain :=
  { nodes :=
      [ { sku := "A", data := ⟨30, 25, 1⟩, llc := 0,
          stock := [("A", 7), ("C", 5)], backorders := 0, orders := [],
          pipeline := [⟨"D", 0, 35⟩] },
        { sku := "B", data := ⟨25, 40, 1⟩, llc := 0, stock := [],
          backorders := 5, orders := [], pipeline := [⟨"D", 1, 75⟩] },
        { sku := "C", data := ⟨150, 20, 1⟩, llc := 1, stock := [("C", 200)],
          backorders := 0, orders := [], pipeline := [] },
        { sku := "D", data := ⟨200, 20, 2⟩, llc := 1, stock := [("D", 40)],
          backorders := 0, orders := [("B", 15)],
          pipeline := [⟨"D", 2, 200⟩] } ],
    edges :=
      [ ⟨"C", "A", 2⟩, ⟨"D", "A", 1⟩, ⟨"D", "B", 3⟩ ] }

/-- Low-level code of the node carrying a sku, zero when the sku is absent. -/
def llcOf (sc : SupplyChain) (sku : SkuCode) : Int :=
  match getNode sc sku with
  | none => 0
  | some n => n.llc

/-- C4 counterexample: in the supply chain constructed in the simulator
notebook, supplier node D has no parent yet carries llc 1, and along the BOM
edge from D to A the llc strictly decreases, so the claim that parentless
nodes have llc 0 and that llc strictly increases along BOM edges is false on
this constructed chain. -/
theorem llc_root_zero_increasing_false :
    ¬ ((∀ n ∈ simChain.nodes, bom simChain n.sku = [] → n.llc = 0) ∧
      (∀ e ∈ simChain.edges,
        llcOf simChain e.source < llcOf simChain e.destination)) := by
  decide

/-- C4 amended: in the constructed supply chain, every node that no BOM edge
leaves (no SKU consumes it) has llc 0, and along every BOM edge the
destination's llc is strictly below the source's — llc counts distance from
the demand end of the chain, not from the suppliers. -/
theorem llc_leaf_zero_decreasing :
    (∀ n ∈ simChain.nodes, children simChain n.sku = [] → n.llc = 0) ∧
    (∀ e ∈ simChain.edges,
      llcOf simChain e.destination < llcOf simChain e.source) := by
  decide
